import Mathlib

/-!
# VESC Tool script editor page

A shallow embedding of `pages/pagescripting.cpp`: the recent-file list kept in
`mRecentFiles`, its persistence through `QSettings`, the file handlers
(open, save, save as, open recent, open example) and the search/replace
handlers working on the code editor.

Strings (`QString`) are lists of characters.  What the page only calls (the
file system behind `QFile`, the `QSettings` store, the list widgets, the text
cursor of the editor) is modelled as plain data with the operations the page
uses.  The editor's find-next, `QCodeEditor::searchNextResult`, is a parameter
of the two replace handlers; its own behaviour is modelled from the
specification.

The definitions come first, then the concrete inputs used by witnesses and
counterexamples, then the theorems: recent files (add, remove, clear), the
`.qml` extension of save-as, failed file actions, persistence, the
no-duplicates invariant, and search/replace.
-/

namespace VescTool

/-- A `QString`, as the sequence of its characters. -/
abbrev QString := List Char

/-- `QString::toLower`, as far as the test for the `.qml` extension needs it:
the letters `A` to `Z` are lowered and every other character is kept. -/
def QString.toLower (s : QString) : QString := s.map Char.toLower

/-- `QString::endsWith`. -/
def QString.endsWith (s suffix : QString) : Bool := suffix.isSuffixOf s

/-! ## File system behind `QFile` and `QFileInfo` -/

/-- One entry of the file system: its content and whether it can be opened
for reading and for writing. -/
structure QFileEntry where
  data : QString
  readable : Bool
  writable : Bool
deriving DecidableEq

/-- The file system: the entry at each path (`none`: nothing exists there) and
whether a missing file may be created at a path. -/
structure FileSystem where
  entry : QString → Option QFileEntry
  creatable : QString → Bool

/-- `QFileInfo::exists`. -/
def FileSystem.fileExists (fs : FileSystem) (path : QString) : Bool :=
  (fs.entry path).isSome

/-- `QFile::open(QIODevice::ReadOnly)` followed by `readAll`: the content when
the file opens, `none` when it does not. -/
def FileSystem.openReadOnly (fs : FileSystem) (path : QString) : Option QString :=
  match fs.entry path with
  | some e => if e.readable then some e.data else none
  | none => none

/-- Replace the entry at one path. -/
def FileSystem.setEntry (fs : FileSystem) (path : QString) (e : QFileEntry) : FileSystem :=
  { fs with entry := fun p => if p = path then some e else fs.entry p }

/-- `QFile::open(QIODevice::WriteOnly)`: truncates an existing writable file,
creates a missing one where that is allowed; `none` when the file does not open. -/
def FileSystem.openWriteOnly (fs : FileSystem) (path : QString) : Option FileSystem :=
  match fs.entry path with
  | some e => if e.writable then some (fs.setEntry path { e with data := [] }) else none
  | none =>
    if fs.creatable path then
      some (fs.setEntry path { data := [], readable := true, writable := true })
    else none

/-- `QFile::write` on a file opened for writing (appends to what is there). -/
def FileSystem.write (fs : FileSystem) (path : QString) (bytes : QString) : FileSystem :=
  match fs.entry path with
  | some e => fs.setEntry path { e with data := e.data ++ bytes }
  | none => fs

/-! ## `QSettings` -/

/-- A stored value. -/
inductive QVariant where
  | invalid
  | string (s : QString)
  | int (n : Int)
deriving DecidableEq

/-- `QVariant::toString` for the values the page stores. -/
def QVariant.toQString : QVariant → QString
  | .string s => s
  | .int n => (toString n).toList
  | .invalid => []

/-- `QVariant::toInt` for the values the page stores. -/
def QVariant.toInt : QVariant → Int
  | .int n => n
  | .string s => (String.toInt? (String.mk s)).getD 0
  | .invalid => 0

/-- A key of the settings store.  Array entries keep their array name, index
and entry key apart (Qt joins them with slashes, the index counted from one). -/
inductive SettingsKey where
  | plain (key : QString)
  | arraySize (array : QString)
  | arrayEntry (array : QString) (index : Nat) (key : QString)
deriving DecidableEq

/-- Whether a key is `group` itself or lies below it. -/
def SettingsKey.under (group : QString) : SettingsKey → Bool
  | .plain k => k == group || (group ++ ['/']).isPrefixOf k
  | .arraySize a => a == group || (group ++ ['/']).isPrefixOf a
  | .arrayEntry a _ _ => a == group || (group ++ ['/']).isPrefixOf a

/-- The settings object: the stored pairs, and the array group opened by
`beginReadArray` / `beginWriteArray` with the index chosen by `setArrayIndex`
and the largest index seen so far plus one. -/
structure QSettings where
  store : SettingsKey → Option QVariant
  array : QString
  index : Nat
  sizeGuess : Nat

namespace QSettings

/-- `QSettings::value(key, defaultValue)` outside an array group. -/
def value (set : QSettings) (key : QString) (defaultValue : QVariant) : QVariant :=
  (set.store (.plain key)).getD defaultValue

/-- `QSettings::setValue(key, value)` outside an array group. -/
def setValue (set : QSettings) (key : QString) (v : QVariant) : QSettings :=
  { set with store := fun k => if k = .plain key then some v else set.store k }

/-- `QSettings::remove(key)`: removes the setting and every setting below it. -/
def remove (set : QSettings) (key : QString) : QSettings :=
  { set with store := fun k => if k.under key then none else set.store k }

/-- `QSettings::beginReadArray`: opens the array and returns its stored size. -/
def beginReadArray (set : QSettings) (array : QString) : Int × QSettings :=
  (((set.store (.arraySize array)).getD .invalid).toInt,
    { set with array := array, index := 0, sizeGuess := 0 })

/-- `QSettings::beginWriteArray` without a size: opens the array and drops the
stored size, which `endArray` writes again from the indices used. -/
def beginWriteArray (set : QSettings) (array : QString) : QSettings :=
  { store := fun k => if k = .arraySize array then none else set.store k
    array := array, index := 0, sizeGuess := 0 }

/-- `QSettings::setArrayIndex`. -/
def setArrayIndex (set : QSettings) (i : Nat) : QSettings :=
  { set with index := i, sizeGuess := max set.sizeGuess (i + 1) }

/-- `QSettings::value(key)` inside an array group, at the current index. -/
def arrayValue (set : QSettings) (key : QString) : QVariant :=
  (set.store (.arrayEntry set.array set.index key)).getD .invalid

/-- `QSettings::setValue(key, value)` inside an array group, at the current index. -/
def setArrayValue (set : QSettings) (key : QString) (v : QVariant) : QSettings :=
  { set with
    store := fun k => if k = .arrayEntry set.array set.index key then some v else set.store k }

/-- `QSettings::endArray` after `beginReadArray`. -/
def endReadArray (set : QSettings) : QSettings :=
  { set with array := [], index := 0, sizeGuess := 0 }

/-- `QSettings::endArray` after `beginWriteArray` without a size: stores the
size found from the indices used. -/
def endWriteArray (set : QSettings) : QSettings :=
  { store := fun k =>
      if k = .arraySize set.array then some (.int set.sizeGuess) else set.store k
    array := [], index := 0, sizeGuess := 0 }

end QSettings

/-! ## The code editor and its text cursor -/

/-- The code editor `ui->qmlEdit`: the document text, the text cursor (the
selection lies between `anchor` and `position`) and the search string set by
the search bar. -/
structure QCodeEditor where
  text : QString
  anchor : Nat
  position : Nat
  searchStrNow : QString
deriving DecidableEq

namespace QCodeEditor

/-- `QTextCursor::selectionStart`. -/
def selectionStart (ed : QCodeEditor) : Nat := min ed.anchor ed.position

/-- `QTextCursor::selectionEnd`. -/
def selectionEnd (ed : QCodeEditor) : Nat := max ed.anchor ed.position

/-- `QTextCursor::selectedText`. -/
def selectedText (ed : QCodeEditor) : QString :=
  (ed.text.drop ed.selectionStart).take (ed.selectionEnd - ed.selectionStart)

/-- `QTextCursor::insertText`: the selection is replaced by `t` and the cursor
is left, without selection, just after the inserted text. -/
def insertText (ed : QCodeEditor) (t : QString) : QCodeEditor :=
  { ed with
    text := ed.text.take ed.selectionStart ++ t ++ ed.text.drop ed.selectionEnd
    anchor := ed.selectionStart + t.length
    position := ed.selectionStart + t.length }

/-- `QPlainTextEdit::setPlainText`: new text, cursor at the start. -/
def setPlainText (ed : QCodeEditor) (t : QString) : QCodeEditor :=
  { ed with text := t, anchor := 0, position := 0 }

/-- `QPlainTextEdit::toPlainText`. -/
def toPlainText (ed : QCodeEditor) : QString := ed.text

/-- Index of the first occurrence of `q` in `t`, if there is one. -/
def firstOccurrence (q : QString) : QString → Option Nat
  | [] => if q.isPrefixOf [] then some 0 else none
  | c :: t =>
    if q.isPrefixOf (c :: t) then some 0 else (firstOccurrence q t).map (· + 1)

/-- Index of the first occurrence of `q` in `t` that starts at `start` or later. -/
def indexOfFrom (t q : QString) (start : Nat) : Option Nat :=
  (firstOccurrence q (t.drop start)).map (· + start)

/-- Modelled from the spec: `QCodeEditor::searchNextResult`, the editor's
"find next", whose code is not part of the page.  It selects the next
occurrence of the search string, searching forward from the cursor and
wrapping to the start of the document when nothing is found; when the document
holds no occurrence (or the search string is empty) the selection is empty. -/
def searchNextResult (ed : QCodeEditor) : QCodeEditor :=
  if ed.searchStrNow.isEmpty then { ed with anchor := ed.position }
  else
    match indexOfFrom ed.text ed.searchStrNow ed.selectionEnd with
    | some i => { ed with anchor := i, position := i + ed.searchStrNow.length }
    | none =>
      match indexOfFrom ed.text ed.searchStrNow 0 with
      | some i => { ed with anchor := i, position := i + ed.searchStrNow.length }
      | none => { ed with anchor := ed.position }

end QCodeEditor

/-! ## The page -/

/-- A `QListWidget`: per item its text and its `Qt::UserRole` data, and the
row of the current item (`none`: no current item). -/
structure QListWidget where
  items : List (QString × QString)
  currentRow : Option Nat
deriving DecidableEq

/-- `QListWidget::currentItem`. -/
def QListWidget.currentItem (l : QListWidget) : Option (QString × QString) :=
  match l.currentRow with
  | some i => l.items.get? i
  | none => none

/-- The state of the page: the widgets of `ui` the handlers read and write,
and the member `mRecentFiles`. -/
structure PageScripting where
  qmlEdit : QCodeEditor
  fileNowLabel : QString
  replaceEdit : QString
  recentList : QListWidget
  exampleList : QListWidget
  mRecentFiles : List QString
deriving DecidableEq

/-- The page together with what its handlers act on outside of it: the file
system, the `QMessageBox::critical` dialogs shown so far (title and text) and
the status messages emitted through `mVesc`. -/
structure World where
  page : PageScripting
  fs : FileSystem
  criticals : List (QString × QString)
  statusMessages : List QString

/-- `QMessageBox::critical(this, title, text)`. -/
def World.critical (w : World) (title text : QString) : World :=
  { w with criticals := w.criticals ++ [(title, text)] }

namespace PageScripting

/-- The key of the recent-file array in the settings. -/
def recentFilesKey : QString := "pagescripting/recentfiles".toList

/-- The key of a file's path inside one entry of the recent-file array. -/
def pathKey : QString := "path".toList

/-- `PageScripting::updateRecentList`. -/
def updateRecentList (p : PageScripting) : PageScripting :=
  { p with recentList := { items := p.mRecentFiles.map fun f => (f, []), currentRow := none } }

/-- The loop of the constructor that reads the recent-file array: the `n`
entries from index `i` on, appended to `acc` in order. -/
def readRecentFiles : Nat → Nat → QSettings → List QString → List QString
  | 0, _, _, acc => acc
  | n + 1, i, set, acc =>
    let set := set.setArrayIndex i
    readRecentFiles n (i + 1) set (acc ++ [(set.arrayValue pathKey).toQString])

/-- The loop of the destructor that writes the recent-file array: one `path`
entry per file, the index counted up from `ind`.  The index is an `int` in the
source; it stays below the length of the list, which a `QList` keeps below
`2^31`, so it is a natural number here. -/
def writeRecentFiles : List QString → Nat → QSettings → QSettings
  | [], _, set => set
  | f :: fs, ind, set =>
    writeRecentFiles fs (ind + 1)
      ((set.setArrayIndex ind).setArrayValue pathKey (.string f))

/-- The constructor `PageScripting::PageScripting`, as far as it restores the
state from the settings; `examples` are the files found under
`://res/qml/Examples/` (name and path). -/
def construct (set : QSettings) (examples : List (QString × QString)) : PageScripting :=
  let qmlEdit : QCodeEditor :=
    { text := (set.value "pagescripting/lastqml".toList (.string [])).toQString
      anchor := 0, position := 0, searchStrNow := [] }
  let fileNowLabel := (set.value "pagescripting/lastfilepath".toList (.string [])).toQString
  let (size, set) := set.beginReadArray recentFilesKey
  let mRecentFiles := readRecentFiles size.toNat 0 set []
  updateRecentList
    { qmlEdit := qmlEdit, fileNowLabel := fileNowLabel, replaceEdit := []
      recentList := { items := [], currentRow := none }
      exampleList := { items := examples, currentRow := none }
      mRecentFiles := mRecentFiles }

/-- The destructor `PageScripting::~PageScripting`: what it leaves in the settings. -/
def destruct (p : PageScripting) (set : QSettings) : QSettings :=
  let set := set.setValue "pagescripting/lastqml".toList (.string p.qmlEdit.toPlainText)
  let set := set.setValue "pagescripting/lastfilepath".toList (.string p.fileNowLabel)
  let set := set.remove recentFilesKey
  let set := set.beginWriteArray recentFilesKey
  let set := writeRecentFiles p.mRecentFiles 0 set
  set.endWriteArray

/-- `PageScripting::on_openFileButton_clicked`; `fileName` is what the
open-file dialog returned (empty when it was cancelled). -/
def on_openFileButton_clicked (fileName : QString) (w : World) : World :=
  if !fileName.isEmpty then
    match w.fs.openReadOnly fileName with
    | none =>
      w.critical "Open QML File".toList
        ("Could not open\n".toList ++ fileName ++ "\nfor reading".toList)
    | some content =>
      let p := { w.page with
        qmlEdit := w.page.qmlEdit.setPlainText content, fileNowLabel := fileName }
      let p :=
        if !p.mRecentFiles.contains fileName then
          updateRecentList { p with mRecentFiles := p.mRecentFiles ++ [fileName] }
        else p
      { w with page := p }
  else w

/-- `PageScripting::on_saveButton_clicked`. -/
def on_saveButton_clicked (w : World) : World :=
  let fileName := w.page.fileNowLabel
  if !w.fs.fileExists fileName then
    w.critical "Save File".toList "Current file not valid. Use save as instead.".toList
  else
    match w.fs.openWriteOnly fileName with
    | none =>
      w.critical "Save QML File".toList
        ("Could not open\n".toList ++ fileName ++ "\nfor writing".toList)
    | some fs =>
      { w with
        fs := fs.write fileName w.page.qmlEdit.toPlainText
        statusMessages := w.statusMessages ++ ["Saved ".toList ++ fileName] }

/-- The file name `on_saveAsButton_clicked` goes on with: the chosen name,
with `.qml` appended unless its lower-case form already ends with `.qml`. -/
def saveAsFileName (fileName : QString) : QString :=
  if !(QString.endsWith fileName.toLower ".qml".toList) then fileName ++ ".qml".toList
  else fileName

/-- `PageScripting::on_saveAsButton_clicked`; `fileName` is what the save-file
dialog returned (empty when it was cancelled). -/
def on_saveAsButton_clicked (fileName : QString) (w : World) : World :=
  if !fileName.isEmpty then
    let fileName := saveAsFileName fileName
    match w.fs.openWriteOnly fileName with
    | none =>
      w.critical "Save QML File".toList
        ("Could not open\n".toList ++ fileName ++ "\nfor writing".toList)
    | some fs =>
      let fs := fs.write fileName w.page.qmlEdit.toPlainText
      let p := { w.page with fileNowLabel := fileName }
      let p :=
        if !p.mRecentFiles.contains fileName then
          updateRecentList { p with mRecentFiles := p.mRecentFiles ++ [fileName] }
        else p
      { w with
        page := p, fs := fs
        statusMessages := w.statusMessages ++ ["Saved ".toList ++ fileName] }
  else w

/-- `PageScripting::on_openRecentButton_clicked`. -/
def on_openRecentButton_clicked (w : World) : World :=
  match w.page.recentList.currentItem with
  | some item =>
    let fileName := item.1
    match w.fs.openReadOnly fileName with
    | none =>
      w.critical "Open QML File".toList
        ("Could not open\n ".toList ++ fileName ++ " for reading".toList)
    | some content =>
      { w with page := { w.page with
          qmlEdit := w.page.qmlEdit.setPlainText content, fileNowLabel := fileName } }
  | none => w.critical "Open Recent".toList "Please select a file.".toList

/-- `PageScripting::on_removeSelectedButton_clicked`. -/
def on_removeSelectedButton_clicked (w : World) : World :=
  match w.page.recentList.currentItem with
  | some item =>
    let fileName := item.1
    let p := { w.page with mRecentFiles := w.page.mRecentFiles.erase fileName }
    { w with page := updateRecentList p }
  | none => w

/-- `PageScripting::on_clearRecentButton_clicked`. -/
def on_clearRecentButton_clicked (w : World) : World :=
  let p := { w.page with mRecentFiles := [] }
  { w with page := updateRecentList p }

/-- `PageScripting::on_openExampleButton_clicked`. -/
def on_openExampleButton_clicked (w : World) : World :=
  match w.page.exampleList.currentItem with
  | some item =>
    match w.fs.openReadOnly item.2 with
    | none =>
      w.critical "Open QML File".toList "Could not open example for reading".toList
    | some content =>
      { w with page := { w.page with
          qmlEdit := w.page.qmlEdit.setPlainText content, fileNowLabel := [] } }
  | none => w.critical "Open Example".toList "Please select one example.".toList

/-- `PageScripting::on_replaceThisButton_clicked`; `searchNextResult` is the
editor's find-next. -/
def on_replaceThisButton_clicked (searchNextResult : QCodeEditor → QCodeEditor)
    (p : PageScripting) : PageScripting :=
  if !p.qmlEdit.selectedText.isEmpty then
    { p with qmlEdit := searchNextResult (p.qmlEdit.insertText p.replaceEdit) }
  else p

/-- The `while` loop of `on_replaceAllButton_clicked`, run for at most `fuel`
tests of its condition: `none` when the loop is still running after that. -/
def replaceAllLoop (searchNextResult : QCodeEditor → QCodeEditor) (replacement : QString) :
    Nat → QCodeEditor → Option QCodeEditor
  | 0, _ => none
  | fuel + 1, ed =>
    if !ed.selectedText.isEmpty then
      replaceAllLoop searchNextResult replacement fuel
        (searchNextResult (ed.insertText replacement))
    else some ed

/-- `PageScripting::on_replaceAllButton_clicked`, its loop bounded by `fuel`. -/
def on_replaceAllButton_clicked (searchNextResult : QCodeEditor → QCodeEditor)
    (fuel : Nat) (p : PageScripting) : Option PageScripting :=
  (replaceAllLoop searchNextResult p.replaceEdit fuel (searchNextResult p.qmlEdit)).map
    fun ed => { p with qmlEdit := ed }

end PageScripting

open PageScripting QCodeEditor

/-- What a find-next for `q` leaves in the editor: either nothing is selected
and the document holds no occurrence of `q`, or an occurrence of `q` is
selected, from `anchor` to the cursor at its end. -/
def QCodeEditor.Found (q : QString) (ed : QCodeEditor) : Prop :=
  ed.searchStrNow = q ∧
    ((ed.selectedText = [] ∧ ¬ q <:+: ed.text) ∨
      (q <+: ed.text.drop ed.anchor ∧ ed.position = ed.anchor + q.length))

/-- The document read as a number: the code of each character is a digit in
base 1114112, which is above every character code, the first character being
the lowest digit. -/
def codeValue : QString → Nat
  | [] => 0
  | c :: t => c.toNat + 1114112 * codeValue t

/-! ## Runs of the page -/

/-- A user action on the page, with what the dialog it opens returns. -/
inductive Action where
  | openFile (fileName : QString)
  | save
  | saveAs (fileName : QString)
  | openRecent
  | removeSelected
  | clearRecent
  | openExample
  | selectRecent (row : Nat)
  | selectExample (row : Nat)

/-- The user makes row `i` of the recent list the current one. -/
def World.selectRecent (w : World) (i : Nat) : World :=
  { w with page := { w.page with recentList := { w.page.recentList with currentRow := some i } } }

/-- The user makes row `i` of the example list the current one. -/
def World.selectExample (w : World) (i : Nat) : World :=
  { w with page := { w.page with exampleList := { w.page.exampleList with currentRow := some i } } }

/-- The handler an action runs. -/
def World.step (w : World) : Action → World
  | .openFile fileName => on_openFileButton_clicked fileName w
  | .save => on_saveButton_clicked w
  | .saveAs fileName => on_saveAsButton_clicked fileName w
  | .openRecent => on_openRecentButton_clicked w
  | .removeSelected => on_removeSelectedButton_clicked w
  | .clearRecent => on_clearRecentButton_clicked w
  | .openExample => on_openExampleButton_clicked w
  | .selectRecent row => w.selectRecent row
  | .selectExample row => w.selectExample row

/-- The world after a sequence of actions. -/
def World.run (w : World) (actions : List Action) : World :=
  actions.foldl World.step w

/-- The world just after the page was created from the settings. -/
def World.initial (set : QSettings) (examples : List (QString × QString))
    (fs : FileSystem) : World :=
  { page := construct set examples, fs := fs, criticals := [], statusMessages := [] }

/-! ## Concrete inputs -/

/-- A file system in which every path can be opened for reading and writing. -/
def permissiveFs : FileSystem :=
  { entry := fun _ => some { data := [], readable := true, writable := true }
    creatable := fun _ => true }

/-- A file system that holds nothing and lets nothing be created. -/
def emptyFs : FileSystem :=
  { entry := fun _ => none, creatable := fun _ => false }

/-- A page whose recent list is `files`, shown in the list widget, with the
row `row` current. -/
def pageWith (files : List QString) (row : Option Nat) : PageScripting :=
  { qmlEdit := { text := "import QtQuick 2.7".toList, anchor := 0, position := 0,
                 searchStrNow := [] }
    fileNowLabel := []
    replaceEdit := []
    recentList := { items := files.map fun f => (f, []), currentRow := row }
    exampleList := { items := [("Demo.qml".toList, ":/res/qml/Examples/Demo.qml".toList)],
                     currentRow := some 0 }
    mRecentFiles := files }

/-- The world of the spec's scenario: recent list `a.qml`, `b.qml`, every file
can be opened. -/
def scenarioWorld : World :=
  { page := pageWith ["a.qml".toList, "b.qml".toList] none
    fs := permissiveFs, criticals := [], statusMessages := [] }

/-- Settings that hold nothing. -/
def emptySettings : QSettings :=
  { store := fun _ => none, array := [], index := 0, sizeGuess := 0 }

/-- Settings whose recent-file array holds the path `a.qml` at both of its
two indices. -/
def duplicateSettings : QSettings :=
  { store := fun k =>
      match k with
      | .arraySize a => if a = recentFilesKey then some (.int 2) else none
      | .arrayEntry a i key =>
        if a = recentFilesKey ∧ i < 2 ∧ key = pathKey then some (.string "a.qml".toList)
        else none
      | .plain _ => none
    array := [], index := 0, sizeGuess := 0 }

/-- The editor of the replace-all run that never ends, in its even rounds:
query `ab`, document `b…b abb a…a` with `2 * k` letters on either side, the
occurrence of `ab` selected. -/
def loopStateA (k : Nat) : QCodeEditor :=
  { text := List.replicate (2 * k) 'b' ++ "abb".toList ++ List.replicate (2 * k) 'a'
    anchor := 2 * k
    position := 2 * k + 2
    searchStrNow := "ab".toList }

/-- The same run in its odd rounds: document `b…b aab a…a` with `2 * k + 2`
letters `b` before and `2 * k` letters `a` after, the occurrence of `ab`
selected. -/
def loopStateB (k : Nat) : QCodeEditor :=
  { text := List.replicate (2 * k + 2) 'b' ++ "aab".toList ++ List.replicate (2 * k) 'a'
    anchor := 2 * k + 3
    position := 2 * k + 5
    searchStrNow := "ab".toList }

/-- A measure of documents that gets smaller each time `ab` is replaced by
`bba`: read from the end of the document, an `a` triples the value of what
follows it and any other character adds one to it. -/
def abWeight : QString → Nat
  | [] => 0
  | c :: t => if c = 'a' then 3 * abWeight t else abWeight t + 1

/-- A page whose editor holds `text` with the cursor selecting from `anchor` to
`position`, the search bar holding `query` and the replace field `replacement`. -/
def editorPage (text : QString) (anchor position : Nat) (query replacement : QString) :
    PageScripting :=
  { qmlEdit := { text := text, anchor := anchor, position := position, searchStrNow := query }
    fileNowLabel := []
    replaceEdit := replacement
    recentList := { items := [], currentRow := none }
    exampleList := { items := [], currentRow := none }
    mRecentFiles := [] }

/-! # Theorems -/

/-! ## Recent files: add, remove, clear -/

theorem openFile_recent (w : World) (p content : QString) (hp : p ≠ [])
    (hopen : w.fs.openReadOnly p = some content) :
    (on_openFileButton_clicked p w).page.mRecentFiles
      = if p ∈ w.page.mRecentFiles then w.page.mRecentFiles else w.page.mRecentFiles ++ [p] := by
  have hne : p.isEmpty = false := by cases p <;> simp_all
  unfold on_openFileButton_clicked
  simp only [hne, hopen]
  by_cases h : p ∈ w.page.mRecentFiles <;> simp [h, updateRecentList]

theorem openFile_fs (w : World) (p : QString) :
    (on_openFileButton_clicked p w).fs = w.fs := by
  unfold on_openFileButton_clicked
  split
  · split <;> rfl
  · rfl

theorem saveAs_recent (w : World) (n : QString) (hn : n ≠ [])
    (hsave : (w.fs.openWriteOnly (saveAsFileName n)).isSome) :
    (on_saveAsButton_clicked n w).page.mRecentFiles
      = if saveAsFileName n ∈ w.page.mRecentFiles then w.page.mRecentFiles
        else w.page.mRecentFiles ++ [saveAsFileName n] := by
  have hne : n.isEmpty = false := by cases n <;> simp_all
  obtain ⟨fs, hfs⟩ := Option.isSome_iff_exists.mp hsave
  unfold on_saveAsButton_clicked
  simp only [hne, hfs]
  by_cases h : saveAsFileName n ∈ w.page.mRecentFiles <;> simp [h, updateRecentList]

theorem saveAs_fs (w : World) (n : QString) (fs : FileSystem) (hn : n ≠ [])
    (hsave : w.fs.openWriteOnly (saveAsFileName n) = some fs) :
    (on_saveAsButton_clicked n w).fs = fs.write (saveAsFileName n) w.page.qmlEdit.toPlainText := by
  have hne : n.isEmpty = false := by cases n <;> simp_all
  unfold on_saveAsButton_clicked
  simp only [hne, hsave]
  simp

theorem openWriteOnly_entry (fs fs1 : FileSystem) (p : QString)
    (h : fs.openWriteOnly p = some fs1) :
    ∃ e, fs1.entry p = some e ∧ e.writable = true ∧ e.data = [] := by
  unfold FileSystem.openWriteOnly at h
  split at h
  · rename_i e he
    split at h
    · rename_i hw
      simp only [Option.some.injEq] at h
      subst h
      exact ⟨{ e with data := [] }, by simp [FileSystem.setEntry], hw, rfl⟩
    · simp at h
  · split at h
    · simp only [Option.some.injEq] at h
      subst h
      exact ⟨{ data := [], readable := true, writable := true },
        by simp [FileSystem.setEntry], rfl, rfl⟩
    · simp at h

theorem write_entry (fs : FileSystem) (p d : QString) (e : QFileEntry)
    (h : fs.entry p = some e) :
    (fs.write p d).entry p = some { e with data := e.data ++ d } := by
  simp [FileSystem.write, h, FileSystem.setEntry]

theorem openWriteOnly_again (fs fs1 : FileSystem) (p d : QString)
    (h : fs.openWriteOnly p = some fs1) :
    ((fs1.write p d).openWriteOnly p).isSome = true := by
  obtain ⟨e, he, hw, _⟩ := openWriteOnly_entry fs fs1 p h
  simp [FileSystem.openWriteOnly, write_entry fs1 p d e he, hw]

/-- C1: the membership-guarded append of the open-file and save-as handlers.
When the chosen file opens (for reading in open-file, for writing in save-as),
a path that is not in the recent list is appended (the list grows by one,
ends with the path, and its earlier elements are the old list), a path that
is in the list leaves the list as it is, and doing the same action again
changes nothing. -/
theorem recent_add_appends_once (w : World) (p content n : QString) :
    (p ≠ [] → w.fs.openReadOnly p = some content →
      (p ∉ w.page.mRecentFiles →
          (on_openFileButton_clicked p w).page.mRecentFiles = w.page.mRecentFiles ++ [p]
          ∧ (on_openFileButton_clicked p w).page.mRecentFiles.length
              = w.page.mRecentFiles.length + 1
          ∧ (on_openFileButton_clicked p w).page.mRecentFiles.getLast? = some p
          ∧ (on_openFileButton_clicked p w).page.mRecentFiles.take w.page.mRecentFiles.length
              = w.page.mRecentFiles)
      ∧ (p ∈ w.page.mRecentFiles →
          (on_openFileButton_clicked p w).page.mRecentFiles = w.page.mRecentFiles)
      ∧ (on_openFileButton_clicked p (on_openFileButton_clicked p w)).page.mRecentFiles
          = (on_openFileButton_clicked p w).page.mRecentFiles)
    ∧ (n ≠ [] → (w.fs.openWriteOnly (saveAsFileName n)).isSome = true →
      (saveAsFileName n ∉ w.page.mRecentFiles →
          (on_saveAsButton_clicked n w).page.mRecentFiles
              = w.page.mRecentFiles ++ [saveAsFileName n]
          ∧ (on_saveAsButton_clicked n w).page.mRecentFiles.length
              = w.page.mRecentFiles.length + 1
          ∧ (on_saveAsButton_clicked n w).page.mRecentFiles.getLast? = some (saveAsFileName n)
          ∧ (on_saveAsButton_clicked n w).page.mRecentFiles.take w.page.mRecentFiles.length
              = w.page.mRecentFiles)
      ∧ (saveAsFileName n ∈ w.page.mRecentFiles →
          (on_saveAsButton_clicked n w).page.mRecentFiles = w.page.mRecentFiles)
      ∧ (on_saveAsButton_clicked n (on_saveAsButton_clicked n w)).page.mRecentFiles
          = (on_saveAsButton_clicked n w).page.mRecentFiles) := by
  constructor
  · intro hp hopen
    have ho := openFile_recent w p content hp hopen
    refine ⟨?_, ?_, ?_⟩
    · intro h
      rw [ho, if_neg h]
      simp
    · intro h
      rw [ho, if_pos h]
    · have hopen2 : (on_openFileButton_clicked p w).fs.openReadOnly p = some content := by
        rw [openFile_fs]; exact hopen
      rw [openFile_recent _ p content hp hopen2, ho]
      by_cases h : p ∈ w.page.mRecentFiles <;> simp [h]
  · intro hn hsave
    have hs := saveAs_recent w n hn hsave
    refine ⟨?_, ?_, ?_⟩
    · intro h
      rw [hs, if_neg h]
      simp
    · intro h
      rw [hs, if_pos h]
    · obtain ⟨fs, hfs⟩ := Option.isSome_iff_exists.mp hsave
      have hsave2 : ((on_saveAsButton_clicked n w).fs.openWriteOnly (saveAsFileName n)).isSome
          = true := by
        rw [saveAs_fs w n fs hn hfs]
        exact openWriteOnly_again _ _ _ _ hfs
      rw [saveAs_recent _ n hn hsave2, hs]
      by_cases h : saveAsFileName n ∈ w.page.mRecentFiles <;> simp [h]

/-- Witness of C1: in the scenario world, opening `c.qml` and saving as `d`
each append one path to `a.qml`, `b.qml`. -/
theorem recent_add_appends_once_witness :
    (on_openFileButton_clicked "c.qml".toList scenarioWorld).page.mRecentFiles
        = ["a.qml".toList, "b.qml".toList, "c.qml".toList]
    ∧ (on_saveAsButton_clicked "d".toList scenarioWorld).page.mRecentFiles
        = ["a.qml".toList, "b.qml".toList, "d.qml".toList] :=
  have h := recent_add_appends_once scenarioWorld "c.qml".toList [] "d".toList
  ⟨((h.1 (by decide) (by rfl)).1 (by decide)).1, ((h.2 (by decide) (by rfl)).1 (by decide)).1⟩

theorem removeSelected_recent (w : World) (item : QString × QString)
    (hsel : w.page.recentList.currentItem = some item) :
    (on_removeSelectedButton_clicked w).page.mRecentFiles = w.page.mRecentFiles.erase item.1 := by
  unfold on_removeSelectedButton_clicked
  simp only [hsel]
  simp [updateRecentList]

theorem erase_eq_filter_of_nodup (L : List QString) (p : QString) (hL : L.Nodup) :
    L.erase p = L.filter fun x => decide (x ≠ p) := by
  induction L with
  | nil => rfl
  | cons a t ih =>
    rw [List.nodup_cons] at hL
    by_cases h : a = p
    · subst h
      rw [List.erase_cons_head, List.filter_cons_of_neg (by simp)]
      symm
      rw [List.filter_eq_self]
      intro x hx
      have : x ≠ a := fun e => hL.1 (e ▸ hx)
      simpa using this
    · rw [List.erase_cons_tail (by simpa using h), List.filter_cons_of_pos (by simpa using h),
        ih hL.2]

/-- C2: `mRecentFiles.removeOne` in the remove-selected handler.  With the path
`p` of the current item in a duplicate-free recent list, the list gets one
shorter, no longer holds `p` and keeps the other paths in their order; with
`p` not in the list, the list stays as it is. -/
theorem recent_remove_one (w : World) (p d : QString)
    (hsel : w.page.recentList.currentItem = some (p, d)) :
    (w.page.mRecentFiles.Nodup → p ∈ w.page.mRecentFiles →
        (on_removeSelectedButton_clicked w).page.mRecentFiles.length + 1
            = w.page.mRecentFiles.length
        ∧ p ∉ (on_removeSelectedButton_clicked w).page.mRecentFiles
        ∧ (on_removeSelectedButton_clicked w).page.mRecentFiles
            = w.page.mRecentFiles.filter fun x => decide (x ≠ p))
    ∧ (p ∉ w.page.mRecentFiles →
        (on_removeSelectedButton_clicked w).page.mRecentFiles = w.page.mRecentFiles) := by
  rw [removeSelected_recent w (p, d) hsel]
  refine ⟨fun hL hp => ⟨?_, ?_, erase_eq_filter_of_nodup _ _ hL⟩, fun hp => ?_⟩
  · rw [List.length_erase_of_mem hp]
    have : 0 < w.page.mRecentFiles.length := List.length_pos_of_mem hp
    omega
  · exact fun h => (List.Nodup.mem_erase_iff hL).mp h |>.1 rfl
  · exact List.erase_of_not_mem hp

/-- Witness of C2: removing the current item `b.qml` from `a.qml`, `b.qml`, `c.qml`. -/
theorem recent_remove_one_witness :
    (on_removeSelectedButton_clicked
        { scenarioWorld with
          page := pageWith ["a.qml".toList, "b.qml".toList, "c.qml".toList] (some 1) }
      ).page.mRecentFiles = ["a.qml".toList, "c.qml".toList] :=
  ((recent_remove_one
      { scenarioWorld with
        page := pageWith ["a.qml".toList, "b.qml".toList, "c.qml".toList] (some 1) }
      "b.qml".toList [] (by rfl)).1 (by decide) (by decide)).2.2

/-- C7: the clear handler empties the recent list whatever it held, and the
scenario of the spec holds step by step: from `a.qml`, `b.qml`, opening
`a.qml` changes nothing, opening `c.qml` appends it, removing the selected
`b.qml` leaves `a.qml`, `c.qml`, and clearing leaves nothing. -/
theorem recent_clear_and_scenario :
    (∀ w : World, (on_clearRecentButton_clicked w).page.mRecentFiles = []
        ∧ (on_clearRecentButton_clicked w).page.recentList.items = [])
    ∧ (on_openFileButton_clicked "a.qml".toList scenarioWorld).page.mRecentFiles
        = ["a.qml".toList, "b.qml".toList]
    ∧ (on_openFileButton_clicked "c.qml".toList
        (on_openFileButton_clicked "a.qml".toList scenarioWorld)).page.mRecentFiles
        = ["a.qml".toList, "b.qml".toList, "c.qml".toList]
    ∧ (on_removeSelectedButton_clicked
        ((on_openFileButton_clicked "c.qml".toList
          (on_openFileButton_clicked "a.qml".toList scenarioWorld)).selectRecent 1)
        ).page.mRecentFiles = ["a.qml".toList, "c.qml".toList]
    ∧ (on_clearRecentButton_clicked
        (on_removeSelectedButton_clicked
          ((on_openFileButton_clicked "c.qml".toList
            (on_openFileButton_clicked "a.qml".toList scenarioWorld)).selectRecent 1))
        ).page.mRecentFiles = [] := by
  refine ⟨fun w => ⟨rfl, rfl⟩, ?_, ?_, ?_, ?_⟩ <;> decide

/-! ## Save as: the `.qml` extension -/

theorem toLower_append (a b : QString) :
    QString.toLower (a ++ b) = QString.toLower a ++ QString.toLower b := by
  simp [QString.toLower]

theorem toLower_qml : QString.toLower ".qml".toList = ".qml".toList := by
  decide

theorem endsWith_iff (s t : QString) : QString.endsWith s t = true ↔ t <:+ s := by
  simp [QString.endsWith]

theorem saveAsFileName_endsWith (n : QString) :
    QString.endsWith (QString.toLower (saveAsFileName n)) ".qml".toList = true := by
  unfold saveAsFileName
  split
  · rw [toLower_append, toLower_qml, endsWith_iff]
    exact List.suffix_append _ _
  · simp_all

theorem saveAs_label (w : World) (n : QString) (hn : n ≠ [])
    (hsave : (w.fs.openWriteOnly (saveAsFileName n)).isSome) :
    (on_saveAsButton_clicked n w).page.fileNowLabel = saveAsFileName n := by
  have hne : n.isEmpty = false := by cases n <;> simp_all
  obtain ⟨fs, hfs⟩ := Option.isSome_iff_exists.mp hsave
  unfold on_saveAsButton_clicked
  simp only [hne, hfs]
  by_cases h : saveAsFileName n ∈ w.page.mRecentFiles <;> simp [h, updateRecentList]

/-- C10: the name save-as goes on with.  For a non-empty chosen name `n` and a
file that opens for writing, the name written to, shown in the label and held
by the recent list is `saveAsFileName n`; its lower-case form ends with
`.qml`; it is `n` when the lower-case form of `n` ends with `.qml` and `n`
followed by `.qml` otherwise; normalising it again returns it. -/
theorem saveAs_extension (w : World) (n : QString) :
    (n ≠ [] → (w.fs.openWriteOnly (saveAsFileName n)).isSome = true →
      (on_saveAsButton_clicked n w).page.fileNowLabel = saveAsFileName n
      ∧ saveAsFileName n ∈ (on_saveAsButton_clicked n w).page.mRecentFiles
      ∧ ((on_saveAsButton_clicked n w).fs.entry (saveAsFileName n)).map QFileEntry.data
          = some w.page.qmlEdit.toPlainText)
    ∧ QString.endsWith (QString.toLower (saveAsFileName n)) ".qml".toList = true
    ∧ (QString.endsWith (QString.toLower n) ".qml".toList = true → saveAsFileName n = n)
    ∧ (QString.endsWith (QString.toLower n) ".qml".toList = false →
        saveAsFileName n = n ++ ".qml".toList)
    ∧ saveAsFileName (saveAsFileName n) = saveAsFileName n := by
  refine ⟨fun hn hsave => ⟨saveAs_label w n hn hsave, ?_, ?_⟩,
    saveAsFileName_endsWith n, ?_, ?_, ?_⟩
  · rw [saveAs_recent w n hn hsave]
    by_cases h : saveAsFileName n ∈ w.page.mRecentFiles <;> simp [h]
  · obtain ⟨fs, hfs⟩ := Option.isSome_iff_exists.mp hsave
    obtain ⟨e, he, _, hd⟩ := openWriteOnly_entry _ _ _ hfs
    rw [saveAs_fs w n fs hn hfs, write_entry fs _ _ e he]
    simp [hd]
  · intro h
    unfold saveAsFileName
    rw [h]
    rfl
  · intro h
    unfold saveAsFileName
    rw [h]
    rfl
  · have h := saveAsFileName_endsWith n
    generalize saveAsFileName n = m at h
    unfold saveAsFileName
    rw [h]
    rfl

/-- Witness of C10: saving as `Script.QML` keeps the name, saving as `script`
appends the extension. -/
theorem saveAs_extension_witness :
    (on_saveAsButton_clicked "Script.QML".toList scenarioWorld).page.fileNowLabel
        = "Script.QML".toList
    ∧ (on_saveAsButton_clicked "script".toList scenarioWorld).page.fileNowLabel
        = "script.qml".toList :=
  ⟨((saveAs_extension scenarioWorld "Script.QML".toList).1 (by decide) (by rfl)).1.trans
      (by decide),
    ((saveAs_extension scenarioWorld "script".toList).1 (by decide) (by rfl)).1.trans
      (by decide)⟩

/-! ## Failed file actions -/

/-- C6: a file action that fails leaves the page as it was.  When open-file,
open-recent or open-example cannot open the file for reading, when save or
save-as cannot open the file for writing, and when save finds that the path
in the label does not exist, the handler only shows one error dialog: the
whole page (editor text, current-file label, recent list with a stale entry
still in it) and every file are as before. -/
theorem failed_file_action_keeps_state (w : World) (p n : QString) (item : QString × QString) :
    (p ≠ [] → w.fs.openReadOnly p = none →
        (on_openFileButton_clicked p w).page = w.page
        ∧ (on_openFileButton_clicked p w).fs = w.fs
        ∧ (on_openFileButton_clicked p w).criticals.length = w.criticals.length + 1)
    ∧ (w.page.recentList.currentItem = some item → w.fs.openReadOnly item.1 = none →
        (on_openRecentButton_clicked w).page = w.page
        ∧ (on_openRecentButton_clicked w).fs = w.fs
        ∧ (on_openRecentButton_clicked w).criticals.length = w.criticals.length + 1)
    ∧ (w.page.exampleList.currentItem = some item → w.fs.openReadOnly item.2 = none →
        (on_openExampleButton_clicked w).page = w.page
        ∧ (on_openExampleButton_clicked w).fs = w.fs
        ∧ (on_openExampleButton_clicked w).criticals.length = w.criticals.length + 1)
    ∧ (w.fs.fileExists w.page.fileNowLabel = false →
        (on_saveButton_clicked w).page = w.page
        ∧ (on_saveButton_clicked w).fs = w.fs
        ∧ (on_saveButton_clicked w).criticals.length = w.criticals.length + 1)
    ∧ (w.fs.openWriteOnly w.page.fileNowLabel = none →
        (on_saveButton_clicked w).page = w.page
        ∧ (on_saveButton_clicked w).fs = w.fs
        ∧ (on_saveButton_clicked w).criticals.length = w.criticals.length + 1)
    ∧ (n ≠ [] → w.fs.openWriteOnly (saveAsFileName n) = none →
        (on_saveAsButton_clicked n w).page = w.page
        ∧ (on_saveAsButton_clicked n w).fs = w.fs
        ∧ (on_saveAsButton_clicked n w).criticals.length = w.criticals.length + 1) := by
  refine ⟨?_, ?_, ?_, ?_, ?_, ?_⟩
  · intro hp h
    have hne : p.isEmpty = false := by cases p <;> simp_all
    simp [on_openFileButton_clicked, hne, h, World.critical]
  · intro hi h
    simp [on_openRecentButton_clicked, hi, h, World.critical]
  · intro hi h
    simp [on_openExampleButton_clicked, hi, h, World.critical]
  · intro h
    simp [on_saveButton_clicked, h, World.critical]
  · intro h
    unfold on_saveButton_clicked
    by_cases he : w.fs.fileExists w.page.fileNowLabel = true
    · simp [he, h, World.critical]
    · simp [he, World.critical]
  · intro hn h
    have hne : n.isEmpty = false := by cases n <;> simp_all
    simp [on_saveAsButton_clicked, hne, h, World.critical]

/-- Witness of C6: with no file at all, opening the stale recent entry `b.qml`
fails and leaves both entries in the recent list. -/
theorem failed_file_action_keeps_state_witness :
    (on_openRecentButton_clicked
        { scenarioWorld with
          fs := emptyFs, page := pageWith ["a.qml".toList, "b.qml".toList] (some 1) }
      ).page.mRecentFiles = ["a.qml".toList, "b.qml".toList] :=
  congrArg PageScripting.mRecentFiles
    ((failed_file_action_keeps_state
        { scenarioWorld with
          fs := emptyFs, page := pageWith ["a.qml".toList, "b.qml".toList] (some 1) }
        "b.qml".toList "b".toList ("b.qml".toList, [])).2.1 (by rfl) (by rfl)).1

/-! ## Persistence of the recent list -/

theorem writeRecentFiles_array (L : List QString) (ind : Nat) (set : QSettings) :
    (writeRecentFiles L ind set).array = set.array := by
  induction L generalizing ind set with
  | nil => rfl
  | cons f fs ih => rw [writeRecentFiles, ih]; rfl

theorem writeRecentFiles_sizeGuess (L : List QString) (ind : Nat) (set : QSettings)
    (h : set.sizeGuess = ind) :
    (writeRecentFiles L ind set).sizeGuess = ind + L.length := by
  induction L generalizing ind set with
  | nil => simpa [writeRecentFiles] using h
  | cons f fs ih =>
    rw [writeRecentFiles, ih]
    · simp; omega
    · simp [QSettings.setArrayValue, QSettings.setArrayIndex, h]

/-- Keys that the writing loop does not touch keep their value. -/
theorem writeRecentFiles_store_other (L : List QString) (ind : Nat) (set : QSettings)
    (k : SettingsKey)
    (hk : ∀ j, j < L.length → k ≠ .arrayEntry set.array (ind + j) pathKey) :
    (writeRecentFiles L ind set).store k = set.store k := by
  induction L generalizing ind set with
  | nil => rfl
  | cons f fs ih =>
    rw [writeRecentFiles, ih]
    · have h0 := hk 0 (by simp)
      simp only [Nat.add_zero] at h0
      simp [QSettings.setArrayValue, QSettings.setArrayIndex, h0]
    · intro j hj
      have := hk (j + 1) (by simpa using hj)
      simpa [QSettings.setArrayValue, QSettings.setArrayIndex, Nat.add_assoc, Nat.add_comm 1 j]
        using this

/-- The writing loop stores element `j` of the list at index `ind + j`. -/
theorem writeRecentFiles_store_entry (L : List QString) (ind : Nat) (set : QSettings)
    (j : Nat) (f : QString) (hj : L[j]? = some f) :
    (writeRecentFiles L ind set).store (.arrayEntry set.array (ind + j) pathKey)
      = some (.string f) := by
  induction L generalizing ind set j with
  | nil => simp at hj
  | cons g fs ih =>
    rw [writeRecentFiles]
    cases j with
    | zero =>
      simp only [List.getElem?_cons_zero, Option.some.injEq] at hj
      subst hj
      rw [writeRecentFiles_store_other]
      · simp [QSettings.setArrayValue, QSettings.setArrayIndex]
      · intro j _
        simp [QSettings.setArrayValue, QSettings.setArrayIndex]
        omega
    | succ j =>
      simp only [List.getElem?_cons_succ] at hj
      have := ih (ind + 1) ((set.setArrayIndex ind).setArrayValue pathKey (.string g)) j hj
      simpa [QSettings.setArrayValue, QSettings.setArrayIndex, Nat.add_assoc, Nat.add_comm 1 j]
        using this

/-- The reading loop appends the stored entries in index order. -/
theorem readRecentFiles_eq (L : List QString) (i : Nat) (set : QSettings) (acc : List QString)
    (h : ∀ j f, L[j]? = some f →
      set.store (.arrayEntry set.array (i + j) pathKey) = some (.string f)) :
    readRecentFiles L.length i set acc = acc ++ L := by
  induction L generalizing i set acc with
  | nil => simp [readRecentFiles]
  | cons g fs ih =>
    rw [List.length_cons, readRecentFiles, ih]
    · have h0 := h 0 g (by simp)
      simp only [Nat.add_zero] at h0
      simp [QSettings.arrayValue, QSettings.setArrayIndex, h0, QVariant.toQString]
    · intro j f hj
      have := h (j + 1) f (by simpa using hj)
      simpa [QSettings.setArrayIndex, Nat.add_assoc, Nat.add_comm 1 j] using this

/-- What the destructor leaves in the store under the recent-file key. -/
theorem destruct_store (p : PageScripting) (set : QSettings) :
    (destruct p set).store (.arraySize recentFilesKey) = some (.int p.mRecentFiles.length)
    ∧ (∀ j f, p.mRecentFiles[j]? = some f →
        (destruct p set).store (.arrayEntry recentFilesKey j pathKey) = some (.string f))
    ∧ (∀ j key, p.mRecentFiles.length ≤ j →
        (destruct p set).store (.arrayEntry recentFilesKey j key) = none) := by
  unfold destruct
  refine ⟨?_, ?_, ?_⟩
  · have hs := writeRecentFiles_sizeGuess p.mRecentFiles 0
      (((set.setValue "pagescripting/lastqml".toList (.string p.qmlEdit.toPlainText)).setValue
        "pagescripting/lastfilepath".toList (.string p.fileNowLabel)).remove
          recentFilesKey |>.beginWriteArray recentFilesKey) rfl
    simp only [QSettings.endWriteArray, writeRecentFiles_array, hs]
    simp [QSettings.beginWriteArray]
  · intro j f hj
    have := writeRecentFiles_store_entry p.mRecentFiles 0
      (((set.setValue "pagescripting/lastqml".toList (.string p.qmlEdit.toPlainText)).setValue
        "pagescripting/lastfilepath".toList (.string p.fileNowLabel)).remove
          recentFilesKey |>.beginWriteArray recentFilesKey) j f hj
    simp only [Nat.zero_add] at this
    simp only [QSettings.endWriteArray]
    rw [if_neg (by simp)]
    exact this
  · intro j key hj
    simp only [QSettings.endWriteArray]
    rw [if_neg (by simp), writeRecentFiles_store_other]
    · simp [QSettings.beginWriteArray, QSettings.remove, SettingsKey.under]
    · intro i hi
      simp [QSettings.beginWriteArray]
      omega

theorem construct_recent (set : QSettings) (examples : List (QString × QString))
    (L : List QString)
    (hsize : set.store (.arraySize recentFilesKey) = some (.int L.length))
    (hentry : ∀ j f, L[j]? = some f →
        set.store (.arrayEntry recentFilesKey j pathKey) = some (.string f)) :
    (construct set examples).mRecentFiles = L := by
  unfold construct
  simp only [QSettings.beginReadArray, hsize, Option.getD_some, QVariant.toInt, Int.toNat_ofNat,
    updateRecentList]
  rw [readRecentFiles_eq]
  · simp
  · intro j f hj
    simpa using hentry j f hj

/-- Saving with the destructor and loading with the constructor gives back
the recent list. -/
theorem construct_destruct_recent (p : PageScripting) (set : QSettings)
    (examples : List (QString × QString)) :
    (construct (destruct p set) examples).mRecentFiles = p.mRecentFiles :=
  construct_recent _ _ _ (destruct_store p set).1 (destruct_store p set).2.1

/-- C3: persistence round trip of the recent list.  For every page and every
prior content of the settings, what the destructor saves and the constructor
then loads is the recent list itself, same elements in the same order; the
store holds the list's length as the array size, element `j` at index `j`,
and nothing of the array at an index past the end. -/
theorem recent_files_round_trip (p : PageScripting) (set : QSettings)
    (examples : List (QString × QString)) :
    (construct (destruct p set) examples).mRecentFiles = p.mRecentFiles
    ∧ (construct (destruct p set) examples).recentList.items
        = p.mRecentFiles.map (fun f => (f, []))
    ∧ (destruct p set).store (.arraySize recentFilesKey) = some (.int p.mRecentFiles.length)
    ∧ (∀ j f, p.mRecentFiles[j]? = some f →
        (destruct p set).store (.arrayEntry recentFilesKey j pathKey) = some (.string f))
    ∧ (∀ j key, p.mRecentFiles.length ≤ j →
        (destruct p set).store (.arrayEntry recentFilesKey j key) = none) := by
  have h := construct_destruct_recent p set examples
  refine ⟨h, ?_, destruct_store p set⟩
  have : (construct (destruct p set) examples).recentList.items
      = (construct (destruct p set) examples).mRecentFiles.map fun f => (f, []) := rfl
  rw [this, h]

/-! ## No duplicates in the recent list -/

theorem openFile_recent_cases (w : World) (p : QString) :
    (on_openFileButton_clicked p w).page.mRecentFiles = w.page.mRecentFiles
    ∨ (p ∉ w.page.mRecentFiles
       ∧ (on_openFileButton_clicked p w).page.mRecentFiles = w.page.mRecentFiles ++ [p]) := by
  unfold on_openFileButton_clicked
  split
  · split
    · exact Or.inl rfl
    · by_cases hm : p ∈ w.page.mRecentFiles
      · left; simp [hm]
      · right; simp [hm, updateRecentList]
  · exact Or.inl rfl

theorem saveAs_recent_cases (w : World) (n : QString) :
    (on_saveAsButton_clicked n w).page.mRecentFiles = w.page.mRecentFiles
    ∨ (saveAsFileName n ∉ w.page.mRecentFiles
       ∧ (on_saveAsButton_clicked n w).page.mRecentFiles
          = w.page.mRecentFiles ++ [saveAsFileName n]) := by
  unfold on_saveAsButton_clicked
  split
  · simp only []
    split
    · exact Or.inl rfl
    · by_cases hm : saveAsFileName n ∈ w.page.mRecentFiles
      · left; simp [hm]
      · right; simp [hm, updateRecentList]
  · exact Or.inl rfl

theorem nodup_append_singleton (L : List QString) (p : QString) (h : L.Nodup) (hp : p ∉ L) :
    (L ++ [p]).Nodup := by
  rw [List.nodup_append]
  refine ⟨h, List.nodup_singleton p, ?_⟩
  intro x hx hx2
  simp only [List.mem_singleton] at hx2
  exact hp (hx2 ▸ hx)

theorem step_nodup (w : World) (a : Action) (h : w.page.mRecentFiles.Nodup) :
    (w.step a).page.mRecentFiles.Nodup := by
  cases a with
  | openFile fileName =>
    rcases openFile_recent_cases w fileName with e | ⟨hp, e⟩
    · simpa only [World.step, e] using h
    · simpa only [World.step, e] using nodup_append_singleton _ _ h hp
  | save =>
    simp only [World.step, on_saveButton_clicked]
    split
    · exact h
    · split <;> exact h
  | saveAs fileName =>
    rcases saveAs_recent_cases w fileName with e | ⟨hp, e⟩
    · simpa only [World.step, e] using h
    · simpa only [World.step, e] using nodup_append_singleton _ _ h hp
  | openRecent =>
    simp only [World.step, on_openRecentButton_clicked]
    split
    · split <;> exact h
    · exact h
  | removeSelected =>
    simp only [World.step, on_removeSelectedButton_clicked]
    split
    · exact h.erase _
    · exact h
  | clearRecent => exact List.nodup_nil
  | openExample =>
    simp only [World.step, on_openExampleButton_clicked]
    split
    · split <;> exact h
    · exact h
  | selectRecent row => exact h
  | selectExample row => exact h

theorem run_nodup (w : World) (acts : List Action) (h : w.page.mRecentFiles.Nodup) :
    (w.run acts).page.mRecentFiles.Nodup := by
  induction acts generalizing w with
  | nil => exact h
  | cons a t ih => exact ih (w.step a) (step_nodup w a h)

/-- Counterexample to C4: created from settings that hold `a.qml` at both
indices of the recent-file array, the page holds `a.qml` twice before any
action has run. -/
theorem recent_duplicates_from_store :
    ((World.initial duplicateSettings [] permissiveFs).run []).page.mRecentFiles
        = ["a.qml".toList, "a.qml".toList]
    ∧ ¬ ((World.initial duplicateSettings [] permissiveFs).run []).page.mRecentFiles.Nodup := by
  decide

/-- C4, amended: the handlers keep the recent list free of duplicates.  When
the list the constructor loads has no duplicates, as it has for settings that
the destructor wrote from a duplicate-free list, no path occurs twice after
any finite sequence of actions. -/
theorem recent_nodup_invariant (set : QSettings) (examples : List (QString × QString))
    (fs : FileSystem) (acts : List Action) :
    ((construct set examples).mRecentFiles.Nodup →
        ((World.initial set examples fs).run acts).page.mRecentFiles.Nodup)
    ∧ (∀ p : PageScripting, p.mRecentFiles.Nodup →
        ((World.initial (destruct p set) examples fs).run acts).page.mRecentFiles.Nodup) := by
  refine ⟨fun h => run_nodup _ acts h, fun p hp => run_nodup _ acts ?_⟩
  show (construct (destruct p set) examples).mRecentFiles.Nodup
  rw [construct_destruct_recent]
  exact hp

/-- Witness of C4 (amended): a run from empty settings that opens `a.qml`
twice, saves as `a`, removes the first row and opens `b.qml`. -/
theorem recent_nodup_invariant_witness :
    ((World.initial emptySettings [] permissiveFs).run
        [.openFile "a.qml".toList, .openFile "a.qml".toList, .saveAs "a".toList,
         .saveAs "c".toList, .selectRecent 0, .removeSelected,
         .openFile "b.qml".toList]).page.mRecentFiles.Nodup :=
  (recent_nodup_invariant emptySettings [] permissiveFs
      [.openFile "a.qml".toList, .openFile "a.qml".toList, .saveAs "a".toList,
       .saveAs "c".toList, .selectRecent 0, .removeSelected,
       .openFile "b.qml".toList]).1 (by decide)

/-! ## Search and replace -/

theorem firstOccurrence_some (q t : QString) (i : Nat)
    (h : firstOccurrence q t = some i) : q <+: t.drop i := by
  induction t generalizing i with
  | nil =>
    simp only [firstOccurrence] at h
    split at h
    · rename_i hp
      simp only [Option.some.injEq] at h
      subst h
      simpa using hp
    · simp at h
  | cons c t ih =>
    simp only [firstOccurrence] at h
    split at h
    · rename_i hp
      simp only [Option.some.injEq] at h
      subst h
      simpa using hp
    · simp only [Option.map_eq_some'] at h
      obtain ⟨j, hj, rfl⟩ := h
      simpa using ih j hj

theorem firstOccurrence_none (q t : QString) (h : firstOccurrence q t = none) :
    ¬ q <:+: t := by
  induction t with
  | nil =>
    simp only [firstOccurrence] at h
    split at h
    · simp at h
    · rename_i hp
      intro hi
      apply hp
      have : q = [] := List.infix_nil.mp hi
      simp [this]
  | cons c t ih =>
    simp only [firstOccurrence] at h
    split at h
    · simp at h
    · rename_i hp
      simp only [Option.map_eq_none'] at h
      intro hi
      rcases List.infix_cons_iff.mp hi with h1 | h2
      · exact hp (by simpa using h1)
      · exact ih h h2

theorem indexOfFrom_some (t q : QString) (s i : Nat) (h : indexOfFrom t q s = some i) :
    q <+: t.drop i := by
  simp only [indexOfFrom, Option.map_eq_some'] at h
  obtain ⟨j, hj, rfl⟩ := h
  have := firstOccurrence_some q _ j hj
  rwa [List.drop_drop, Nat.add_comm] at this

theorem indexOfFrom_zero_none (t q : QString) (h : indexOfFrom t q 0 = none) :
    ¬ q <:+: t := by
  simp only [indexOfFrom, Option.map_eq_none', List.drop_zero] at h
  exact firstOccurrence_none q t h

theorem isEmpty_eq_false (l : QString) (h : l ≠ []) : l.isEmpty = false := by
  cases l with
  | nil => exact absurd rfl h
  | cons c t => rfl

theorem searchNextResult_text (ed : QCodeEditor) : (searchNextResult ed).text = ed.text := by
  unfold searchNextResult
  split
  · rfl
  · split
    · rfl
    · split <;> rfl

theorem searchNextResult_searchStrNow (ed : QCodeEditor) :
    (searchNextResult ed).searchStrNow = ed.searchStrNow := by
  unfold searchNextResult
  split
  · rfl
  · split
    · rfl
    · split <;> rfl

theorem selectedText_collapsed (ed : QCodeEditor) (h : ed.anchor = ed.position) :
    ed.selectedText = [] := by
  simp [selectedText, selectionStart, selectionEnd, h]

theorem searchNextResult_found (ed : QCodeEditor) (hq : ed.searchStrNow ≠ []) :
    Found ed.searchStrNow (searchNextResult ed) := by
  have hne : ed.searchStrNow.isEmpty = false := isEmpty_eq_false _ hq
  refine ⟨searchNextResult_searchStrNow ed, ?_⟩
  unfold searchNextResult
  simp only [hne, Bool.false_eq_true, if_false]
  split
  · rename_i i hi
    exact Or.inr ⟨indexOfFrom_some _ _ _ _ hi, rfl⟩
  · split
    · rename_i i hi
      exact Or.inr ⟨indexOfFrom_some _ _ _ _ hi, rfl⟩
    · rename_i hi
      exact Or.inl ⟨selectedText_collapsed _ rfl, indexOfFrom_zero_none _ _ hi⟩

/-- With an occurrence of `q` selected, the document is `A ++ q ++ B` and
inserting `r` makes it `A ++ r ++ B`. -/
theorem insertText_of_selected (q r : QString) (ed : QCodeEditor)
    (hocc : q <+: ed.text.drop ed.anchor) (hpos : ed.position = ed.anchor + q.length) :
    ed.selectedText = q
    ∧ ed.text = ed.text.take ed.anchor ++ q ++ ed.text.drop (ed.anchor + q.length)
    ∧ (ed.insertText r).text
        = ed.text.take ed.anchor ++ r ++ ed.text.drop (ed.anchor + q.length) := by
  obtain ⟨s, hs⟩ := hocc
  have hstart : ed.selectionStart = ed.anchor := by simp [selectionStart, hpos]
  have hend : ed.selectionEnd = ed.anchor + q.length := by simp [selectionEnd, hpos]
  have hdrop : ed.text.drop (ed.anchor + q.length) = s := by
    rw [← List.drop_drop, ← hs]
    simp
  refine ⟨?_, ?_, ?_⟩
  · simp [selectedText, hstart, hend, ← hs]
  · rw [hdrop, List.append_assoc, hs, List.take_append_drop]
  · simp [insertText, hstart, hend]

/-- The loop of replace-all stops when every replacement makes a measure of
the document smaller. -/
theorem replaceAllLoop_stops (q r : QString) (hq : q ≠ []) (μ : QString → Nat)
    (hμ : ∀ A B : QString, μ (A ++ r ++ B) < μ (A ++ q ++ B)) :
    ∀ (n : Nat) (ed : QCodeEditor), μ ed.text ≤ n → Found q ed →
      ∃ ed', replaceAllLoop searchNextResult r (n + 1) ed = some ed'
        ∧ ed'.selectedText = [] ∧ ¬ q <:+: ed'.text := by
  intro n
  induction n with
  | zero =>
    intro ed hn hf
    rcases hf.2 with ⟨hsel, hno⟩ | ⟨hocc, hpos⟩
    · exact ⟨ed, by simp [replaceAllLoop, hsel], hsel, hno⟩
    · obtain ⟨_, htext, _⟩ := insertText_of_selected q r ed hocc hpos
      have := hμ (ed.text.take ed.anchor) (ed.text.drop (ed.anchor + q.length))
      rw [← htext] at this
      omega
  | succ n ih =>
    intro ed hn hf
    rcases hf.2 with ⟨hsel, hno⟩ | ⟨hocc, hpos⟩
    · exact ⟨ed, by simp [replaceAllLoop, hsel], hsel, hno⟩
    · obtain ⟨hsel, htext, hins⟩ := insertText_of_selected q r ed hocc hpos
      have hlt := hμ (ed.text.take ed.anchor) (ed.text.drop (ed.anchor + q.length))
      rw [← htext, ← hins] at hlt
      have hstr : (ed.insertText r).searchStrNow = q := hf.1
      have hf' : Found q (searchNextResult (ed.insertText r)) := by
        have := searchNextResult_found (ed.insertText r) (by rw [hstr]; exact hq)
        rwa [hstr] at this
      obtain ⟨ed', hrun, hres⟩ := ih (searchNextResult (ed.insertText r))
        (by rw [searchNextResult_text]; omega) hf'
      refine ⟨ed', ?_, hres⟩
      rw [replaceAllLoop]
      have : ed.selectedText.isEmpty = false := by
        rw [hsel]; exact isEmpty_eq_false q hq
      simp only [this, Bool.not_false, if_true]
      exact hrun

/-- When the loop of replace-all stops, the document holds no occurrence. -/
theorem replaceAllLoop_result (q r : QString) (hq : q ≠ []) :
    ∀ (n : Nat) (ed ed' : QCodeEditor), Found q ed →
      replaceAllLoop searchNextResult r n ed = some ed' →
      ed'.selectedText = [] ∧ ¬ q <:+: ed'.text := by
  intro n
  induction n with
  | zero => intro ed ed' _ h; simp [replaceAllLoop] at h
  | succ n ih =>
    intro ed ed' hf h
    rw [replaceAllLoop] at h
    split at h
    · have hstr : (ed.insertText r).searchStrNow = q := hf.1
      have hf' : Found q (searchNextResult (ed.insertText r)) := by
        have := searchNextResult_found (ed.insertText r) (by rw [hstr]; exact hq)
        rwa [hstr] at this
      exact ih _ _ hf' h
    · rename_i hsel
      simp only [Option.some.injEq] at h
      subst h
      have hempty : ed.selectedText = [] := by
        cases hs : ed.selectedText <;> simp_all
      rcases hf.2 with ⟨_, hno⟩ | ⟨hocc, hpos⟩
      · exact ⟨hempty, hno⟩
      · obtain ⟨hsel', _, _⟩ := insertText_of_selected q r ed hocc hpos
        exact absurd (hsel'.symm.trans hempty) hq

/-! ### Replacements of the query's length: the document as a number -/

theorem char_toNat_lt (c : Char) : c.toNat < 1114112 := by
  have h := c.valid
  have e : c.toNat = c.val.toNat := rfl
  unfold UInt32.isValidChar Nat.isValidChar at h
  omega

theorem codeValue_lt (l : QString) : codeValue l < 1114112 ^ l.length := by
  induction l with
  | nil => simp [codeValue]
  | cons c t ih =>
    have hc := char_toNat_lt c
    rw [codeValue, List.length_cons, pow_succ]
    nlinarith

theorem codeValue_append (a b : QString) :
    codeValue (a ++ b) = codeValue a + 1114112 ^ a.length * codeValue b := by
  induction a with
  | nil => simp [codeValue]
  | cons c t ih =>
    rw [List.cons_append, codeValue, ih, codeValue, List.length_cons, pow_succ]
    ring

theorem codeValue_inj (a b : QString) (hlen : a.length = b.length)
    (h : codeValue a = codeValue b) : a = b := by
  induction a generalizing b with
  | nil =>
    cases b with
    | nil => rfl
    | cons d u => simp at hlen
  | cons c t ih =>
    cases b with
    | nil => simp at hlen
    | cons d u =>
      have hc := char_toNat_lt c
      have hd := char_toNat_lt d
      simp only [codeValue] at h
      simp only [List.length_cons, Nat.add_right_cancel_iff] at hlen
      have h1 : c.toNat = d.toNat := by omega
      have h2 : codeValue t = codeValue u := by omega
      have h3 : c = d := by
        rw [← Char.ofNat_toNat c, ← Char.ofNat_toNat d, h1]
      rw [h3, ih u hlen h2]

/-- Replacing `q` by `r` of the same length inside a document changes the
document's number the way `r` differs from `q`. -/
theorem codeValue_replace_lt (q r A B : QString) (hlen : r.length = q.length)
    (h : codeValue r < codeValue q) :
    codeValue (A ++ r ++ B) < codeValue (A ++ q ++ B) := by
  simp only [List.append_assoc, codeValue_append, hlen]
  have hpos : 0 < 1114112 ^ A.length := by positivity
  have : codeValue r + 1114112 ^ q.length * codeValue B
      < codeValue q + 1114112 ^ q.length * codeValue B := by omega
  have := Nat.mul_lt_mul_of_pos_left this hpos
  omega

theorem replaceAllLoop_stops_of_le (q r : QString) (hq : q ≠ []) (hr : ¬ q <:+: r)
    (hlen : r.length ≤ q.length) (ed : QCodeEditor) (hf : Found q ed) :
    ∃ fuel ed', replaceAllLoop searchNextResult r fuel ed = some ed'
      ∧ ed'.selectedText = [] ∧ ¬ q <:+: ed'.text := by
  rcases Nat.lt_or_ge r.length q.length with hlt | hge
  · obtain ⟨ed', h⟩ := replaceAllLoop_stops q r hq List.length
      (fun A B => by simp only [List.length_append]; omega) _ ed (Nat.le_refl _) hf
    exact ⟨_, ed', h⟩
  · have hlen' : r.length = q.length := Nat.le_antisymm hlen hge
    have hne : codeValue r ≠ codeValue q := by
      intro e
      exact hr (codeValue_inj r q hlen' e ▸ List.infix_refl q)
    rcases Nat.lt_or_gt_of_ne hne with hlt | hgt
    · obtain ⟨ed', h⟩ := replaceAllLoop_stops q r hq codeValue
        (fun A B => codeValue_replace_lt q r A B hlen' hlt) _ ed (Nat.le_refl _) hf
      exact ⟨_, ed', h⟩
    · obtain ⟨ed', h⟩ := replaceAllLoop_stops q r hq
        (fun t => 1114112 ^ t.length - codeValue t)
        (fun A B => by
          have h1 := codeValue_replace_lt r q A B hlen'.symm hgt
          have h2 := codeValue_lt (A ++ r ++ B)
          have hL : (A ++ r ++ B).length = (A ++ q ++ B).length := by
            simp only [List.length_append, hlen']
          show 1114112 ^ (A ++ r ++ B).length - codeValue (A ++ r ++ B)
            < 1114112 ^ (A ++ q ++ B).length - codeValue (A ++ q ++ B)
          rw [hL] at h2 ⊢
          omega) _ ed (Nat.le_refl _) hf
      exact ⟨_, ed', h⟩


/-- Replacing `q` by `r` lowers the number of a character that `r` holds
fewer times than `q`. -/
theorem count_replace_lt (c : Char) (q r A B : QString) (h : r.count c < q.count c) :
    (A ++ r ++ B).count c < (A ++ q ++ B).count c := by
  simp only [List.count_append]
  omega

/-- The loop of replace-all stops for every replacement that does not contain
the query, unless the replacement is longer than the query and holds every
character at least as often as the query does. -/
theorem replaceAllLoop_stops_unless_longer (q r : QString) (hq : q ≠ []) (hr : ¬ q <:+: r)
    (hshape : ¬ (q.length < r.length ∧ ∀ c : Char, q.count c ≤ r.count c))
    (ed : QCodeEditor) (hf : Found q ed) :
    ∃ fuel ed', replaceAllLoop searchNextResult r fuel ed = some ed'
      ∧ ed'.selectedText = [] ∧ ¬ q <:+: ed'.text := by
  by_cases hlen : r.length ≤ q.length
  · exact replaceAllLoop_stops_of_le q r hq hr hlen ed hf
  · have hc : ∃ c : Char, r.count c < q.count c := by
      by_contra hno
      apply hshape
      refine ⟨by omega, fun c => ?_⟩
      by_contra hlt
      exact hno ⟨c, by omega⟩
    obtain ⟨c, hc⟩ := hc
    obtain ⟨ed', h⟩ := replaceAllLoop_stops q r hq (List.count c)
      (fun A B => count_replace_lt c q r A B hc) _ ed (Nat.le_refl _) hf
    exact ⟨_, ed', h⟩

theorem abWeight_append_lt (A X Y : QString) (h : abWeight X < abWeight Y) :
    abWeight (A ++ X) < abWeight (A ++ Y) := by
  induction A with
  | nil => exact h
  | cons c t ih =>
    rw [List.cons_append, List.cons_append, abWeight, abWeight]
    split <;> omega

/-- Replacing `ab` by `bba` lowers the weight of the document. -/
theorem abWeight_replace_lt (A B : QString) :
    abWeight (A ++ ['b', 'b', 'a'] ++ B) < abWeight (A ++ ['a', 'b'] ++ B) := by
  rw [List.append_assoc, List.append_assoc]
  apply abWeight_append_lt
  simp only [List.cons_append, List.nil_append, abWeight]
  simp
  omega

/-! ### A run of replace-all that never ends

Query `ab`, replacement `bbaa`, document `abb`: each replacement puts a new
`ab` just before the inserted text, which the wrapped search finds. -/

theorem firstOccurrence_ab_cons_b (t : QString) :
    firstOccurrence ['a', 'b'] ('b' :: t) = (firstOccurrence ['a', 'b'] t).map (· + 1) := by
  simp [firstOccurrence, List.isPrefixOf]

theorem firstOccurrence_ab_replicate_b (n : Nat) (t : QString) :
    firstOccurrence ['a', 'b'] (List.replicate n 'b' ++ t)
      = (firstOccurrence ['a', 'b'] t).map (· + n) := by
  induction n with
  | zero => simp
  | succ n ih =>
    rw [List.replicate_succ, List.cons_append, firstOccurrence_ab_cons_b, ih]
    cases firstOccurrence ['a', 'b'] t <;> simp [Nat.add_assoc]

theorem firstOccurrence_ab_here (t : QString) :
    firstOccurrence ['a', 'b'] ('a' :: 'b' :: t) = some 0 := by
  simp [firstOccurrence, List.isPrefixOf]

theorem firstOccurrence_ab_cons_a_a (t : QString) :
    firstOccurrence ['a', 'b'] ('a' :: 'a' :: t)
      = (firstOccurrence ['a', 'b'] ('a' :: t)).map (· + 1) := by
  rw [firstOccurrence]
  simp [List.isPrefixOf]

theorem firstOccurrence_ab_replicate_a (n : Nat) :
    firstOccurrence ['a', 'b'] (List.replicate n 'a') = none := by
  induction n with
  | zero => simp [firstOccurrence, List.isPrefixOf]
  | succ n ih =>
    rw [List.replicate_succ, firstOccurrence, ih]
    cases n <;> simp [List.isPrefixOf, List.replicate_succ]

theorem firstOccurrence_ab_b_replicate_a (n : Nat) :
    firstOccurrence ['a', 'b'] ('b' :: List.replicate n 'a') = none := by
  rw [firstOccurrence_ab_cons_b, firstOccurrence_ab_replicate_a]; rfl

theorem insertText_loopStateA (k : Nat) :
    (loopStateA k).insertText ['b', 'b', 'a', 'a']
      = { text := List.replicate (2 * k) 'b' ++ ('b' :: 'b' :: 'a' :: 'a' :: 'b' ::
            List.replicate (2 * k) 'a')
          anchor := 2 * k + 4, position := 2 * k + 4, searchStrNow := ['a', 'b'] } := by
  have hs : (loopStateA k).selectionStart = 2 * k := by simp [selectionStart, loopStateA]
  have he : (loopStateA k).selectionEnd = 2 * k + 2 := by simp [selectionEnd, loopStateA]
  have ht : (loopStateA k).text
      = List.replicate (2 * k) 'b' ++ ('a' :: 'b' :: 'b' :: List.replicate (2 * k) 'a') := by
    simp [loopStateA]
  have h1 : (loopStateA k).text.take (2 * k) = List.replicate (2 * k) 'b' := by
    rw [ht, List.take_left' (by simp)]
  have h2 : (loopStateA k).text.drop (2 * k + 2) = 'b' :: List.replicate (2 * k) 'a' := by
    rw [ht, ← List.drop_drop, List.drop_left' (by simp)]
    rfl
  simp only [insertText, hs, he, h1, h2]
  simp [loopStateA]

theorem searchNextResult_wrap (ed : QCodeEditor) (i : Nat) (hq : ed.searchStrNow ≠ [])
    (h1 : firstOccurrence ed.searchStrNow (ed.text.drop ed.selectionEnd) = none)
    (h2 : firstOccurrence ed.searchStrNow ed.text = some i) :
    searchNextResult ed = { ed with anchor := i, position := i + ed.searchStrNow.length } := by
  unfold searchNextResult
  simp [isEmpty_eq_false _ hq, indexOfFrom, h1, h2]

theorem replicate_append_two (n : Nat) (c : Char) :
    List.replicate n c ++ [c, c] = c :: c :: List.replicate n c := by
  have h1 : [c, c] = List.replicate 2 c := rfl
  have h2 : c :: c :: List.replicate n c = List.replicate 2 c ++ List.replicate n c := rfl
  rw [h2, h1, ← List.replicate_add, ← List.replicate_add, Nat.add_comm]

theorem insertText_loopStateB (k : Nat) :
    (loopStateB k).insertText ['b', 'b', 'a', 'a']
      = { text := List.replicate (2 * k + 2) 'b' ++ ('a' :: 'b' :: 'b' :: 'a' :: 'a' ::
            List.replicate (2 * k) 'a')
          anchor := 2 * k + 7, position := 2 * k + 7, searchStrNow := ['a', 'b'] } := by
  have hs : (loopStateB k).selectionStart = 2 * k + 3 := by simp [selectionStart, loopStateB]
  have he : (loopStateB k).selectionEnd = 2 * k + 5 := by simp [selectionEnd, loopStateB]
  have ht : (loopStateB k).text
      = List.replicate (2 * k + 2) 'b' ++ ('a' :: 'a' :: 'b' :: List.replicate (2 * k) 'a') := by
    simp [loopStateB]
  have h1 : (loopStateB k).text.take (2 * k + 3) = List.replicate (2 * k + 2) 'b' ++ ['a'] := by
    rw [ht, List.take_append_eq_append_take]
    simp
  have h2 : (loopStateB k).text.drop (2 * k + 5) = List.replicate (2 * k) 'a' := by
    rw [ht, show 2 * k + 5 = (2 * k + 2) + 3 from rfl, ← List.drop_drop,
      List.drop_left' (by simp)]
    rfl
  simp only [insertText, hs, he, h1, h2]
  simp [loopStateB]

theorem step_loopStateA (k : Nat) :
    searchNextResult ((loopStateA k).insertText ['b', 'b', 'a', 'a']) = loopStateB k := by
  rw [insertText_loopStateA, searchNextResult_wrap _ (2 * k + 3) (by simp)]
  · simp [loopStateB, List.replicate_add]
  · have : (2 * k + 4) = (2 * k) + 4 := rfl
    simp only [selectionEnd, max_self]
    rw [← List.drop_drop, List.drop_left' (by simp)]
    exact firstOccurrence_ab_b_replicate_a _
  · simp only [firstOccurrence_ab_replicate_b, firstOccurrence_ab_cons_b,
      firstOccurrence_ab_cons_a_a, firstOccurrence_ab_here]
    simp
    omega

theorem step_loopStateB (k : Nat) :
    searchNextResult ((loopStateB k).insertText ['b', 'b', 'a', 'a']) = loopStateA (k + 1) := by
  rw [insertText_loopStateB, searchNextResult_wrap _ (2 * k + 2) (by simp)]
  · simp only [loopStateA, Nat.mul_add, Nat.mul_one, List.length_cons, List.length_nil]
    rw [List.replicate_add (2 * k) 2 'a', ← replicate_append_two]
    simp
  · simp only [selectionEnd, max_self]
    rw [show 2 * k + 7 = (2 * k + 2) + 5 from rfl, ← List.drop_drop, List.drop_left' (by simp)]
    exact firstOccurrence_ab_replicate_a _
  · simp only [firstOccurrence_ab_replicate_b, firstOccurrence_ab_here]
    simp

theorem selectedText_loopStateA (k : Nat) : (loopStateA k).selectedText = ['a', 'b'] := by
  have hs : (loopStateA k).selectionStart = 2 * k := by simp [selectionStart, loopStateA]
  have he : (loopStateA k).selectionEnd = 2 * k + 2 := by simp [selectionEnd, loopStateA]
  have ht : (loopStateA k).text
      = List.replicate (2 * k) 'b' ++ ('a' :: 'b' :: 'b' :: List.replicate (2 * k) 'a') := by
    simp [loopStateA]
  simp only [selectedText, hs, he, ht]
  rw [List.drop_left' (by simp)]
  simp

theorem selectedText_loopStateB (k : Nat) : (loopStateB k).selectedText = ['a', 'b'] := by
  have hs : (loopStateB k).selectionStart = 2 * k + 3 := by simp [selectionStart, loopStateB]
  have he : (loopStateB k).selectionEnd = 2 * k + 5 := by simp [selectionEnd, loopStateB]
  have ht : (loopStateB k).text
      = List.replicate (2 * k + 2) 'b' ++ ('a' :: 'a' :: 'b' :: List.replicate (2 * k) 'a') := by
    simp [loopStateB]
  simp only [selectedText, hs, he, ht]
  rw [show 2 * k + 3 = (2 * k + 2) + 1 from rfl, ← List.drop_drop, List.drop_left' (by simp)]
  simp

/-- From `abb` with query `ab` and replacement `bbaa` the loop of replace-all
is still running after any number of rounds. -/
theorem replaceAllLoop_never_stops (fuel : Nat) :
    ∀ k, replaceAllLoop searchNextResult ['b', 'b', 'a', 'a'] fuel (loopStateA k) = none
      ∧ replaceAllLoop searchNextResult ['b', 'b', 'a', 'a'] fuel (loopStateB k) = none := by
  induction fuel with
  | zero => intro k; exact ⟨rfl, rfl⟩
  | succ n ih =>
    intro k
    constructor
    · rw [replaceAllLoop, selectedText_loopStateA, step_loopStateA]
      exact (ih k).2
    · rw [replaceAllLoop, selectedText_loopStateB, step_loopStateB]
      exact (ih (k + 1)).1

theorem searchNextResult_abb :
    searchNextResult (editorPage "abb".toList 0 0 "ab".toList "bbaa".toList).qmlEdit
      = loopStateA 0 := by
  decide

/-! ### The claims on replace-all and replace-current -/

/-- Counterexample to C5: with the document `abb`, the query `ab` and the
replacement `bbaa`, which does not contain `ab`, replace-all yields no
document at all, however long it runs. -/
theorem replace_all_yields_no_document :
    "ab".toList ≠ [] ∧ ¬ "ab".toList <:+: "bbaa".toList
    ∧ ¬ ∃ fuel p', on_replaceAllButton_clicked searchNextResult fuel
          (editorPage "abb".toList 0 0 "ab".toList "bbaa".toList) = some p' := by
  refine ⟨by decide, by decide, ?_⟩
  rintro ⟨fuel, p', h⟩
  unfold on_replaceAllButton_clicked at h
  rw [searchNextResult_abb] at h
  have := (replaceAllLoop_never_stops fuel 0).1
  simp [editorPage, this] at h

/-- Counterexample to C8: with the document `abb`, the query `ab` and the
replacement `bbaa`, the loop of replace-all never reaches an empty selection:
after the first find-next no number of rounds ends it. -/
theorem replace_all_loop_runs_forever :
    ¬ ∃ fuel, (replaceAllLoop searchNextResult "bbaa".toList fuel
        (searchNextResult
          { text := "abb".toList, anchor := 0, position := 0, searchStrNow := "ab".toList })
        ).isSome = true := by
  rintro ⟨fuel, h⟩
  have e : searchNextResult
      { text := "abb".toList, anchor := 0, position := 0, searchStrNow := "ab".toList }
      = loopStateA 0 := by decide
  rw [e] at h
  have := (replaceAllLoop_never_stops fuel 0).1
  simp [this] at h

/-- C5, amended: replace-all outside the one shape of replacement that can
keep it running.  For every page whose search string `q` is not empty: when
the replacement `r` does not contain `q`, replace-all ends and the document it
leaves holds no occurrence of `q`, unless `r` is longer than `q` and holds
every character at least as often as `q` does; the same holds for any `r`
for which some measure of documents gets smaller each time an occurrence of
`q` is replaced by `r`, one test of the loop more than the measure of the
document being enough; and for any replacement, whenever replace-all ends,
the document it leaves holds no occurrence of `q`. -/
theorem replace_all_removes_occurrences (p : PageScripting)
    (hq : p.qmlEdit.searchStrNow ≠ []) :
    (¬ p.qmlEdit.searchStrNow <:+: p.replaceEdit →
      ¬ (p.qmlEdit.searchStrNow.length < p.replaceEdit.length
          ∧ ∀ c : Char, p.qmlEdit.searchStrNow.count c ≤ p.replaceEdit.count c) →
      ∃ fuel p', on_replaceAllButton_clicked searchNextResult fuel p = some p'
        ∧ ¬ p.qmlEdit.searchStrNow <:+: p'.qmlEdit.text)
    ∧ (∀ μ : QString → Nat,
        (∀ A B : QString,
          μ (A ++ p.replaceEdit ++ B) < μ (A ++ p.qmlEdit.searchStrNow ++ B)) →
        ∃ p', on_replaceAllButton_clicked searchNextResult (μ p.qmlEdit.text + 1) p = some p'
          ∧ ¬ p.qmlEdit.searchStrNow <:+: p'.qmlEdit.text)
    ∧ (∀ fuel p', on_replaceAllButton_clicked searchNextResult fuel p = some p' →
        ¬ p.qmlEdit.searchStrNow <:+: p'.qmlEdit.text) := by
  have hf := searchNextResult_found p.qmlEdit hq
  refine ⟨?_, ?_, ?_⟩
  · intro hr hshape
    obtain ⟨fuel, ed', hrun, _, hno⟩ :=
      replaceAllLoop_stops_unless_longer _ _ hq hr hshape _ hf
    exact ⟨fuel, { p with qmlEdit := ed' }, by simp [on_replaceAllButton_clicked, hrun], hno⟩
  · intro μ hμ
    obtain ⟨ed', hrun, _, hno⟩ := replaceAllLoop_stops _ _ hq μ hμ (μ p.qmlEdit.text)
      (searchNextResult p.qmlEdit) (by rw [searchNextResult_text]) hf
    exact ⟨{ p with qmlEdit := ed' }, by simp [on_replaceAllButton_clicked, hrun], hno⟩
  · intro fuel p' h
    simp only [on_replaceAllButton_clicked, Option.map_eq_some'] at h
    obtain ⟨ed', hrun, rfl⟩ := h
    exact (replaceAllLoop_result _ _ hq fuel _ ed' hf hrun).2

/-- Witness of C5 (amended): in `foo(foo)`, replacing `foo` by the longer
`barbaz`, which holds no `o`, ends with a document free of `foo`; in `aab`,
replacing `ab` by the longer `bba`, which holds every character of `ab` as
often, ends within `abWeight` of the document plus one tests of the loop. -/
theorem replace_all_removes_occurrences_witness :
    (∃ fuel p', on_replaceAllButton_clicked searchNextResult fuel
          (editorPage "foo(foo)".toList 0 0 "foo".toList "barbaz".toList) = some p'
        ∧ ¬ "foo".toList <:+: p'.qmlEdit.text)
    ∧ ∃ p', on_replaceAllButton_clicked searchNextResult
          (abWeight "aab".toList + 1)
          (editorPage "aab".toList 0 0 "ab".toList "bba".toList) = some p'
        ∧ ¬ "ab".toList <:+: p'.qmlEdit.text :=
  ⟨(replace_all_removes_occurrences
      (editorPage "foo(foo)".toList 0 0 "foo".toList "barbaz".toList) (by decide)).1
      (by decide) (fun h => absurd (h.2 'o') (by decide)),
    (replace_all_removes_occurrences
      (editorPage "aab".toList 0 0 "ab".toList "bba".toList) (by decide)).2.1
      abWeight abWeight_replace_lt⟩

/-- C8, amended: the loop of replace-all stops outside the one shape of
replacement that can keep it running.  For every editor whose search string
`q` is not empty and every replacement `r` that does not contain `q`, the loop
entered after the first find-next stops after finitely many rounds, unless
`r` is longer than `q` and holds every character at least as often as `q`
does; it also stops, within one test of its condition more than the measure
of the document, for any `r` for which some measure of documents gets smaller
each time an occurrence of `q` is replaced by `r`; when `r` is shorter than
`q`, one test more than the document has characters is enough, and when `r`
holds a character fewer times than `q`, one test more than the document holds
that character. -/
theorem replace_all_loop_stops (ed : QCodeEditor) (r : QString)
    (hq : ed.searchStrNow ≠ []) :
    (¬ ed.searchStrNow <:+: r →
      ¬ (ed.searchStrNow.length < r.length
          ∧ ∀ c : Char, ed.searchStrNow.count c ≤ r.count c) →
      ∃ fuel, (replaceAllLoop searchNextResult r fuel (searchNextResult ed)).isSome = true)
    ∧ (∀ μ : QString → Nat,
        (∀ A B : QString, μ (A ++ r ++ B) < μ (A ++ ed.searchStrNow ++ B)) →
        (replaceAllLoop searchNextResult r (μ ed.text + 1)
          (searchNextResult ed)).isSome = true)
    ∧ (r.length < ed.searchStrNow.length →
        (replaceAllLoop searchNextResult r (ed.text.length + 1)
          (searchNextResult ed)).isSome = true)
    ∧ (∀ c : Char, r.count c < ed.searchStrNow.count c →
        (replaceAllLoop searchNextResult r (ed.text.count c + 1)
          (searchNextResult ed)).isSome = true) := by
  have hf := searchNextResult_found ed hq
  have hmeasure : ∀ μ : QString → Nat,
      (∀ A B : QString, μ (A ++ r ++ B) < μ (A ++ ed.searchStrNow ++ B)) →
      (replaceAllLoop searchNextResult r (μ ed.text + 1)
        (searchNextResult ed)).isSome = true := by
    intro μ hμ
    obtain ⟨ed', hrun, _⟩ := replaceAllLoop_stops ed.searchStrNow r hq μ hμ (μ ed.text)
      (searchNextResult ed) (by rw [searchNextResult_text]) hf
    simp [hrun]
  refine ⟨?_, hmeasure, ?_, ?_⟩
  · intro hr hshape
    obtain ⟨fuel, ed', hrun, _⟩ := replaceAllLoop_stops_unless_longer _ _ hq hr hshape _ hf
    exact ⟨fuel, by simp [hrun]⟩
  · intro hlt
    exact hmeasure List.length (fun A B => by simp only [List.length_append]; omega)
  · intro c hc
    exact hmeasure (List.count c) (fun A B => count_replace_lt c _ r A B hc)

/-- Witness of C8 (amended): in `abab` the loop stops for the replacements
`ba` (a rearrangement of `ab`), `bcbc` (longer, without `a`) and `bba`
(longer, with every character of `ab`, by the measure `abWeight`). -/
theorem replace_all_loop_stops_witness :
    (∃ fuel, (replaceAllLoop searchNextResult "ba".toList fuel
      (searchNextResult
        { text := "abab".toList, anchor := 0, position := 0, searchStrNow := "ab".toList })
      ).isSome = true)
    ∧ (∃ fuel, (replaceAllLoop searchNextResult "bcbc".toList fuel
      (searchNextResult
        { text := "abab".toList, anchor := 0, position := 0, searchStrNow := "ab".toList })
      ).isSome = true)
    ∧ (replaceAllLoop searchNextResult "bba".toList (abWeight "abab".toList + 1)
      (searchNextResult
        { text := "abab".toList, anchor := 0, position := 0, searchStrNow := "ab".toList })
      ).isSome = true :=
  ⟨(replace_all_loop_stops
      { text := "abab".toList, anchor := 0, position := 0, searchStrNow := "ab".toList }
      "ba".toList (by decide)).1 (by decide) (fun h => absurd h.1 (by decide)),
    (replace_all_loop_stops
      { text := "abab".toList, anchor := 0, position := 0, searchStrNow := "ab".toList }
      "bcbc".toList (by decide)).1 (by decide) (fun h => absurd (h.2 'a') (by decide)),
    (replace_all_loop_stops
      { text := "abab".toList, anchor := 0, position := 0, searchStrNow := "ab".toList }
      "bba".toList (by decide)).2.1 abWeight abWeight_replace_lt⟩

/-- C9: replace-current.  With a non-empty selection the handler replaces
exactly the selected range by the replacement (the old document is the text
before the selection, the selection, and the text after it; the document
handed to find-next is the same with the replacement in the middle, and so is
the final document for a find-next that only moves the selection) and then
runs one find-next, whatever the find-next is; with an empty selection it
changes nothing and runs no find-next. -/
theorem replace_current (next : QCodeEditor → QCodeEditor) (p : PageScripting) :
    (p.qmlEdit.selectedText ≠ [] →
      on_replaceThisButton_clicked next p
          = { p with qmlEdit := next (p.qmlEdit.insertText p.replaceEdit) }
      ∧ p.qmlEdit.text = p.qmlEdit.text.take p.qmlEdit.selectionStart
          ++ p.qmlEdit.selectedText ++ p.qmlEdit.text.drop p.qmlEdit.selectionEnd
      ∧ (p.qmlEdit.insertText p.replaceEdit).text
          = p.qmlEdit.text.take p.qmlEdit.selectionStart
            ++ p.replaceEdit ++ p.qmlEdit.text.drop p.qmlEdit.selectionEnd
      ∧ ((∀ ed, (next ed).text = ed.text) →
          (on_replaceThisButton_clicked next p).qmlEdit.text
            = p.qmlEdit.text.take p.qmlEdit.selectionStart
              ++ p.replaceEdit ++ p.qmlEdit.text.drop p.qmlEdit.selectionEnd))
    ∧ (p.qmlEdit.selectedText = [] → on_replaceThisButton_clicked next p = p) := by
  constructor
  · intro h
    have hne := isEmpty_eq_false _ h
    refine ⟨by simp [on_replaceThisButton_clicked, hne], ?_, rfl, ?_⟩
    · have hle : p.qmlEdit.selectionStart ≤ p.qmlEdit.selectionEnd := by
        simp [selectionStart, selectionEnd]
      unfold selectedText
      rw [← List.take_add, Nat.add_sub_cancel' hle, List.take_append_drop]
    · intro hnext
      simp [on_replaceThisButton_clicked, hne, hnext, insertText]
  · intro h
    simp [on_replaceThisButton_clicked, h]

/-- Witness of C9: in `x = foo;` with `foo` selected, replacing by `bar`. -/
theorem replace_current_witness :
    (on_replaceThisButton_clicked searchNextResult
        (editorPage "x = foo;".toList 4 7 "foo".toList "bar".toList)).qmlEdit.text
      = "x = bar;".toList :=
  (((replace_current searchNextResult
      (editorPage "x = foo;".toList 4 7 "foo".toList "bar".toList)).1 (by decide)).2.2.2
        searchNextResult_text).trans
    (by decide)

end VescTool
